import Mathlib

/-!
Verification of the exifserve tag-streaming pipeline (handler/handler.go).

The Go program launches an external process, decodes its XML output token by
token, and streams a JSON document to a sink.  This file gives a shallow
embedding of the core functions:

* errors: Go error values with and without a wrapping chain (fmt.Errorf
  with the w verb wraps, with the v verb it flattens to a plain string);
  errorsIs models errors.Is;
* the XML token source: xml.Decoder is modelled as a list of structural
  tokens plus the decoder's stack of open elements; Token returns io.EOF
  at end of input only when no element is open, otherwise a syntax error,
  and it rejects mismatched close tags (as encoding/xml does);
* search, attributeByLocalName, the streamer loop (stream, streamTags,
  emitTag, emitProlog, emitEpilog) and the error-combination rule of
  StreamTags;
* the JSON encoding done by json.Encoder for the specific record struct of
  emitTag (five fields in declaration order, map keys sorted, a newline
  appended after every encoded value).

The sink (an io.Writer) is modelled as an append-only string; write errors
are not modelled, record extraction and termination behaviour are the
subject of the claims, not sink failures.
-/

/-- A Go error value.  The constructor eof is io.EOF; synErr is an
xml.SyntaxError (encoding/xml produces one for truncated or mis-nested
input); str is an error created by errors.New or by fmt.Errorf without a
wrapping verb; wrap is fmt.Errorf with the w verb, which keeps the wrapped
error reachable for errors.Is. -/
inductive GoError where
  | eof
  | synErr (msg : String)
  | str (msg : String)
  | wrap (msg : String) (inner : GoError)
  deriving Repr, DecidableEq, BEq

/-- The Error() string of a Go error, used when fmt.Errorf formats an error
with the v verb (flattening it). -/
def GoError.message : GoError → String
  | .eof => "EOF"
  | .synErr m => "XML syntax error: " ++ m
  | .str m => m
  | .wrap m e => m ++ ": " ++ e.message

/-- errors.Is: target equality, else follow the Unwrap chain.  Only wrap
has an Unwrap method; str (fmt.Errorf with the v verb) does not. -/
def errorsIs (e target : GoError) : Bool :=
  e == target ||
    match e with
    | .wrap _ inner => errorsIs inner target
    | _ => false

/-- One XML attribute (xml.Attr), local name and value. -/
structure Attr where
  name : String
  value : String
  deriving Repr, DecidableEq

/-- An xml.StartElement: local name plus attribute list. -/
structure StartElem where
  name : String
  attrs : List Attr
  deriving Repr, DecidableEq

/-- A structural token of the XML stream as delivered by xml.Decoder.Token:
element open, element close, character data, or any other token kind
(comment, processing instruction, directive). -/
inductive Tok where
  | start (se : StartElem)
  | close (name : String)
  | text (s : String)
  | other
  deriving Repr, DecidableEq

/-- The xml.Decoder: the remaining raw tokens and the stack of currently
open element names (innermost first). -/
structure Decoder where
  toks : List Tok
  stk : List String
  deriving Repr, DecidableEq

/-- xml.Decoder.Token.  End of input with no element open is io.EOF; end of
input with an open element, a close tag with no element open, and a close
tag not matching the innermost open element are syntax errors.  An open tag
pushes the stack, its matching close tag pops it. -/
def Decoder.token : Decoder → Except GoError (Tok × Decoder)
  | ⟨[], []⟩ => .error .eof
  | ⟨[], _ :: _⟩ => .error (.synErr "unexpected EOF")
  | ⟨.start se :: r, stk⟩ => .ok (.start se, ⟨r, se.name :: stk⟩)
  | ⟨.close n :: r, stk⟩ =>
    match stk with
    | [] => .error (.synErr ("unexpected end element </" ++ n ++ ">"))
    | top :: rest =>
      if top = n then .ok (.close n, ⟨r, rest⟩)
      else .error (.synErr ("element <" ++ top ++ "> closed by </" ++ n ++ ">"))
  | ⟨.text s :: r, stk⟩ => .ok (.text s, ⟨r, stk⟩)
  | ⟨.other :: r, stk⟩ => .ok (.other, ⟨r, stk⟩)

theorem Decoder.token_toks_lt {d : Decoder} {t : Tok} {d' : Decoder}
    (h : d.token = .ok (t, d')) : d'.toks.length < d.toks.length := by
  match d with
  | ⟨[], []⟩ => simp [Decoder.token] at h
  | ⟨[], _ :: _⟩ => simp [Decoder.token] at h
  | ⟨.start se :: r, stk⟩ =>
    simp [Decoder.token] at h
    obtain ⟨h1, h2⟩ := h
    subst h2
    simp
  | ⟨.close n :: r, stk⟩ =>
    match stk with
    | [] => simp [Decoder.token] at h
    | top :: rest =>
      by_cases htop : top = n
      · simp [Decoder.token, htop] at h
        obtain ⟨h1, h2⟩ := h
        subst h2
        simp
      · simp [Decoder.token, htop] at h
  | ⟨.text s :: r, stk⟩ =>
    simp [Decoder.token] at h
    obtain ⟨h1, h2⟩ := h
    subst h2
    simp
  | ⟨.other :: r, stk⟩ =>
    simp [Decoder.token] at h
    obtain ⟨h1, h2⟩ := h
    subst h2
    simp

/-- An xmlQuery: the name to match on an open element and the name enabling
the close branch. -/
structure xmlQuery where
  NamedStart : String
  NamedEnd : String
  deriving Repr, DecidableEq

/-- An xmlSearchResult: at most one of the two fields is set on success. -/
structure xmlSearchResult where
  NamedStart : Option StartElem
  NamedEnd : Option String
  deriving Repr, DecidableEq

/-- search from handler.go: pulls tokens until a condition of the query is
met.  On an open element: skip when the query has no open target, match
when the local name equals NamedStart.  On a close element: skip when the
query has no close target; otherwise the source compares the close tag's
local name against NamedStart (not NamedEnd) — modelled as written.  Every
other token is skipped; a token error is wrapped (w verb). -/
def search (q : xmlQuery) (d : Decoder) : Except GoError (xmlSearchResult × Decoder) :=
  match h : d.token with
  | .error e => .error (.wrap "decoder.Token" e)
  | .ok (tok, d') =>
    match tok with
    | .start se =>
      if q.NamedStart = "" then search q d'
      else if se.name = q.NamedStart then .ok (⟨some se, none⟩, d')
      else search q d'
    | .close n =>
      if q.NamedEnd = "" then search q d'
      else if n = q.NamedStart then .ok (⟨none, some n⟩, d')
      else search q d'
    | .text _ => search q d'
    | .other => search q d'
termination_by d.toks.length
decreasing_by
  all_goals exact Decoder.token_toks_lt h

theorem search_err {q : xmlQuery} {d : Decoder} {e : GoError}
    (h : d.token = .error e) :
    search q d = .error (.wrap "decoder.Token" e) := by
  rw [search]
  split
  · rename_i e2 heq
    rw [h] at heq
    cases heq
    rfl
  · rename_i tok d' heq
    rw [h] at heq
    cases heq

theorem search_step_start {q : xmlQuery} {d : Decoder} {se : StartElem} {d' : Decoder}
    (h : d.token = .ok (.start se, d')) :
    search q d =
      (if q.NamedStart = "" then search q d'
       else if se.name = q.NamedStart then .ok (⟨some se, none⟩, d')
       else search q d') := by
  rw [search]
  split
  · rename_i e2 heq
    rw [h] at heq
    cases heq
  · rename_i tok d2 heq
    rw [h] at heq
    cases heq
    rfl

theorem search_step_close {q : xmlQuery} {d : Decoder} {n : String} {d' : Decoder}
    (h : d.token = .ok (.close n, d')) :
    search q d =
      (if q.NamedEnd = "" then search q d'
       else if n = q.NamedStart then .ok (⟨none, some n⟩, d')
       else search q d') := by
  rw [search]
  split
  · rename_i e2 heq
    rw [h] at heq
    cases heq
  · rename_i tok d2 heq
    rw [h] at heq
    cases heq
    rfl

theorem search_step_text {q : xmlQuery} {d : Decoder} {s : String} {d' : Decoder}
    (h : d.token = .ok (.text s, d')) : search q d = search q d' := by
  rw [search]
  split
  · rename_i e2 heq
    rw [h] at heq
    cases heq
  · rename_i tok d2 heq
    rw [h] at heq
    cases heq
    rfl

theorem search_step_other {q : xmlQuery} {d : Decoder} {d' : Decoder}
    (h : d.token = .ok (.other, d')) : search q d = search q d' := by
  rw [search]
  split
  · rename_i e2 heq
    rw [h] at heq
    cases heq
  · rename_i tok d2 heq
    rw [h] at heq
    cases heq
    rfl

theorem search_toks_lt {q : xmlQuery} {d : Decoder} {r : xmlSearchResult} {d' : Decoder}
    (h : search q d = .ok (r, d')) : d'.toks.length < d.toks.length := by
  induction d using search.induct q with
  | case1 x e htok =>
    rw [search_err htok] at h
    cases h
  | case2 x d2 se htok hempty _ ih =>
    rw [search_step_start htok, if_pos hempty] at h
    exact Nat.lt_trans (ih h) (Decoder.token_toks_lt htok)
  | case3 x d2 se htok hne hmatch _ =>
    rw [search_step_start htok, if_neg hne, if_pos hmatch] at h
    cases h
    exact Decoder.token_toks_lt htok
  | case4 x d2 se htok hne hnomatch _ ih =>
    rw [search_step_start htok, if_neg hne, if_neg hnomatch] at h
    exact Nat.lt_trans (ih h) (Decoder.token_toks_lt htok)
  | case5 x d2 n htok hempty _ ih =>
    rw [search_step_close htok, if_pos hempty] at h
    exact Nat.lt_trans (ih h) (Decoder.token_toks_lt htok)
  | case6 x d2 hne htok _ =>
    rw [search_step_close htok, if_neg hne, if_pos rfl] at h
    cases h
    exact Decoder.token_toks_lt htok
  | case7 x d2 n htok hne hnomatch _ ih =>
    rw [search_step_close htok, if_neg hne, if_neg hnomatch] at h
    exact Nat.lt_trans (ih h) (Decoder.token_toks_lt htok)
  | case8 x d2 s htok _ ih =>
    rw [search_step_text htok] at h
    exact Nat.lt_trans (ih h) (Decoder.token_toks_lt htok)
  | case9 x d2 htok _ ih =>
    rw [search_step_other htok] at h
    exact Nat.lt_trans (ih h) (Decoder.token_toks_lt htok)

/-- Helper for the claim about search results: a successful search sets
exactly one field, an open match carries a start token named NamedStart,
and a close match is produced only for a close tag named NamedStart while
NamedEnd is nonempty. -/
theorem search_ok_shape {q : xmlQuery} {d : Decoder} {r : xmlSearchResult} {d' : Decoder}
    (h : search q d = .ok (r, d')) :
    ((∃ se, r.NamedStart = some se ∧ se.name = q.NamedStart ∧ q.NamedStart ≠ "") ∧
        r.NamedEnd = none) ∨
      (r.NamedStart = none ∧ r.NamedEnd = some q.NamedStart ∧ q.NamedEnd ≠ "") := by
  induction d using search.induct q with
  | case1 x e htok =>
    rw [search_err htok] at h
    cases h
  | case2 x d2 se htok hempty _ ih =>
    rw [search_step_start htok, if_pos hempty] at h
    exact ih h
  | case3 x d2 se htok hne hmatch _ =>
    rw [search_step_start htok, if_neg hne, if_pos hmatch] at h
    cases h
    exact Or.inl ⟨⟨se, rfl, hmatch, hne⟩, rfl⟩
  | case4 x d2 se htok hne hnomatch _ ih =>
    rw [search_step_start htok, if_neg hne, if_neg hnomatch] at h
    exact ih h
  | case5 x d2 n htok hempty _ ih =>
    rw [search_step_close htok, if_pos hempty] at h
    exact ih h
  | case6 x d2 hne htok _ =>
    rw [search_step_close htok, if_neg hne, if_pos rfl] at h
    cases h
    exact Or.inr ⟨rfl, rfl, hne⟩
  | case7 x d2 n htok hne hnomatch _ ih =>
    rw [search_step_close htok, if_neg hne, if_neg hnomatch] at h
    exact ih h
  | case8 x d2 s htok _ ih =>
    rw [search_step_text htok] at h
    exact ih h
  | case9 x d2 htok _ ih =>
    rw [search_step_other htok] at h
    exact ih h

/-- attributeByLocalName from handler.go: the first attribute whose local
name matches, together with the found flag (modelled as Option). -/
def attributeByLocalName (name : String) : List Attr → Option String
  | [] => none
  | attr :: rest =>
    if attr.name = name then some attr.value else attributeByLocalName name rest

/-- strings.TrimSpace, restricted to the whitespace code points relevant
here (encoding/xml applies it before strconv.ParseBool). -/
def goTrimSpace (s : String) : String :=
  let ws : List Char := [' ', '\t', '\n', '\r', Char.ofNat 11, Char.ofNat 12]
  ⟨((s.data.dropWhile (ws.contains ·)).reverse.dropWhile (ws.contains ·)).reverse⟩

/-- strconv.ParseBool. -/
def goParseBool (s : String) : Except GoError Bool :=
  if s = "1" ∨ s = "t" ∨ s = "T" ∨ s = "true" ∨ s = "TRUE" ∨ s = "True" then .ok true
  else if s = "0" ∨ s = "f" ∨ s = "F" ∨ s = "false" ∨ s = "FALSE" ∨ s = "False" then .ok false
  else .error (.str ("strconv.ParseBool: parsing " ++ s ++ ": invalid argument"))

/-- The attribute-derived fields of the record struct in emitTag:
Name (name attr), Writable (writable attr), Type (type attr). -/
structure TagAttrFields where
  name : String
  writable : Bool
  type : String
  deriving Repr, DecidableEq

/-- encoding/xml attribute unmarshalling for the emitTag struct: attributes
are scanned in order, a later duplicate overwrites an earlier one,
unmatched attributes are ignored.  A writable attribute that is empty
leaves the boolean at its zero value; otherwise it is trimmed and parsed,
and a parse failure fails the whole decode. -/
def applyTagAttrs : TagAttrFields → List Attr → Except GoError TagAttrFields
  | acc, [] => .ok acc
  | acc, attr :: rest =>
    if attr.name = "name" then applyTagAttrs { acc with name := attr.value } rest
    else if attr.name = "writable" then
      if attr.value = "" then applyTagAttrs { acc with writable := false } rest
      else
        match goParseBool (goTrimSpace attr.value) with
        | .ok b => applyTagAttrs { acc with writable := b } rest
        | .error e => .error e
    else if attr.name = "type" then applyTagAttrs { acc with type := attr.value } rest
    else applyTagAttrs acc rest

/-- xml.Decoder.Skip: consume tokens until the depth of currently open
skipped elements returns to zero, discarding everything. -/
def skipDepth (n : Nat) (d : Decoder) : Except GoError Decoder :=
  match n with
  | 0 => .ok d
  | m + 1 =>
    match h : d.token with
    | .error e => .error e
    | .ok (.start _, d') => skipDepth (m + 2) d'
    | .ok (.close _, d') => skipDepth m d'
    | .ok (.text _, d') => skipDepth (m + 1) d'
    | .ok (.other, d') => skipDepth (m + 1) d'
termination_by d.toks.length
decreasing_by
  all_goals exact Decoder.token_toks_lt h

theorem skipDepth_toks_le {n : Nat} {d d' : Decoder}
    (h : skipDepth n d = .ok d') : d'.toks.length ≤ d.toks.length := by
  induction n, d using skipDepth.induct with
  | case1 d =>
    rw [skipDepth] at h
    cases h
    exact Nat.le_refl _
  | case2 d m e htok =>
    rw [skipDepth] at h
    split at h <;> rename_i heq <;> rw [htok] at heq <;> cases heq
    cases h
  | case3 d m se d2 htok ih =>
    rw [skipDepth] at h
    split at h <;> rename_i heq <;> rw [htok] at heq <;> cases heq
    exact Nat.le_trans (ih h) (Nat.le_of_lt (Decoder.token_toks_lt htok))
  | case4 d m nm d2 htok ih =>
    rw [skipDepth] at h
    split at h <;> rename_i heq <;> rw [htok] at heq <;> cases heq
    exact Nat.le_trans (ih h) (Nat.le_of_lt (Decoder.token_toks_lt htok))
  | case5 d m s d2 htok ih =>
    rw [skipDepth] at h
    split at h <;> rename_i heq <;> rw [htok] at heq <;> cases heq
    exact Nat.le_trans (ih h) (Nat.le_of_lt (Decoder.token_toks_lt htok))
  | case6 d m d2 htok ih =>
    rw [skipDepth] at h
    split at h <;> rename_i heq <;> rw [htok] at heq <;> cases heq
    exact Nat.le_trans (ih h) (Nat.le_of_lt (Decoder.token_toks_lt htok))

/-- One raw description child of a tag record: the lang attribute and the
inline character data (the xmlDesc struct of emitTag). -/
structure DescRaw where
  lang : String
  value : String
  deriving Repr, DecidableEq

/-- The lang attribute of a desc element under encoding/xml rules:
attributes are scanned in order, a later duplicate overwrites, absence
leaves the zero value. -/
def descAttrLang (attrs : List Attr) : String :=
  attrs.foldl (fun acc a => if a.name = "lang" then a.value else acc) ""

/-- Body of unmarshalling one desc element after its open tag has been
consumed: character data at the element's own level accumulates into the
chardata field, child elements are skipped wholesale (their contents,
text included, are discarded), and the matching close tag ends the
element.  The depth argument counts currently open skipped child elements. -/
def decodeDescBody (depth : Nat) (acc : String) (d : Decoder) :
    Except GoError (String × Decoder) :=
  match h : d.token with
  | .error e => .error e
  | .ok (tok, d') =>
    match depth, tok with
    | 0, .close _ => .ok (acc, d')
    | 0, .text s => decodeDescBody 0 (acc ++ s) d'
    | 0, .start _ => decodeDescBody 1 acc d'
    | 0, .other => decodeDescBody 0 acc d'
    | m + 1, .close _ => decodeDescBody m acc d'
    | m + 1, .start _ => decodeDescBody (m + 2) acc d'
    | m + 1, .text _ => decodeDescBody (m + 1) acc d'
    | m + 1, .other => decodeDescBody (m + 1) acc d'
termination_by d.toks.length
decreasing_by
  all_goals exact Decoder.token_toks_lt h

theorem decodeDescBody_toks_le {depth : Nat} {acc : String} {d : Decoder}
    {v : String} {d' : Decoder}
    (h : decodeDescBody depth acc d = .ok (v, d')) : d'.toks.length ≤ d.toks.length := by
  induction depth, acc, d using decodeDescBody.induct with
  | case1 depth acc d e htok =>
    rw [decodeDescBody] at h
    split at h <;> rename_i heq <;> rw [htok] at heq <;> cases heq
    cases h
  | case2 acc d d2 nm htok _ =>
    rw [decodeDescBody] at h
    split at h <;> rename_i heq <;> rw [htok] at heq <;> cases heq
    cases h
    exact Nat.le_of_lt (Decoder.token_toks_lt htok)
  | case3 acc d d2 s htok _ ih =>
    rw [decodeDescBody] at h
    split at h <;> rename_i heq <;> rw [htok] at heq <;> cases heq
    exact Nat.le_trans (ih h) (Nat.le_of_lt (Decoder.token_toks_lt htok))
  | case4 acc d d2 se htok _ ih =>
    rw [decodeDescBody] at h
    split at h <;> rename_i heq <;> rw [htok] at heq <;> cases heq
    exact Nat.le_trans (ih h) (Nat.le_of_lt (Decoder.token_toks_lt htok))
  | case5 acc d d2 htok _ ih =>
    rw [decodeDescBody] at h
    split at h <;> rename_i heq <;> rw [htok] at heq <;> cases heq
    exact Nat.le_trans (ih h) (Nat.le_of_lt (Decoder.token_toks_lt htok))
  | case6 acc d d2 m nm htok _ ih =>
    rw [decodeDescBody] at h
    split at h <;> rename_i heq <;> rw [htok] at heq <;> cases heq
    exact Nat.le_trans (ih h) (Nat.le_of_lt (Decoder.token_toks_lt htok))
  | case7 acc d d2 m se htok _ ih =>
    rw [decodeDescBody] at h
    split at h <;> rename_i heq <;> rw [htok] at heq <;> cases heq
    exact Nat.le_trans (ih h) (Nat.le_of_lt (Decoder.token_toks_lt htok))
  | case8 acc d d2 m s htok _ ih =>
    rw [decodeDescBody] at h
    split at h <;> rename_i heq <;> rw [htok] at heq <;> cases heq
    exact Nat.le_trans (ih h) (Nat.le_of_lt (Decoder.token_toks_lt htok))
  | case9 acc d d2 m htok _ ih =>
    rw [decodeDescBody] at h
    split at h <;> rename_i heq <;> rw [htok] at heq <;> cases heq
    exact Nat.le_trans (ih h) (Nat.le_of_lt (Decoder.token_toks_lt htok))

/-- Unmarshal one desc child: its open tag is already consumed; the lang
attribute comes from that open tag, the value from the body. -/
def decodeDesc (se : StartElem) (d : Decoder) : Except GoError (DescRaw × Decoder) :=
  match decodeDescBody 0 "" d with
  | .error e => .error e
  | .ok (v, d') => .ok (⟨descAttrLang se.attrs, v⟩, d')

theorem decodeDesc_toks_le {se : StartElem} {d : Decoder} {dsc : DescRaw} {d' : Decoder}
    (h : decodeDesc se d = .ok (dsc, d')) : d'.toks.length ≤ d.toks.length := by
  unfold decodeDesc at h
  split at h
  · cases h
  · rename_i v d2 heq
    cases h
    exact decodeDescBody_toks_le heq

/-- The raw fields extracted by DecodeElement for the record struct of
emitTag before the transform step: name, writable, the desc children in
document order, and type. -/
structure TagRaw where
  name : String
  writable : Bool
  descs : List DescRaw
  type : String
  deriving Repr, DecidableEq

/-- Body of unmarshalling one tag element after its open tag has been
consumed: desc children are unmarshalled and collected in order, any other
child element is skipped wholesale, character data and other tokens at the
tag's own level are ignored (the struct has no chardata field), and the
matching close tag ends the element. -/
def decodeTagBody (descs : List DescRaw) (d : Decoder) :
    Except GoError (List DescRaw × Decoder) :=
  match h : d.token with
  | .error e => .error e
  | .ok (tok, d') =>
    match tok with
    | .close _ => .ok (descs, d')
    | .start se =>
      if se.name = "desc" then
        match h2 : decodeDesc se d' with
        | .error e => .error e
        | .ok (dsc, d2) => decodeTagBody (descs ++ [dsc]) d2
      else
        match h2 : skipDepth 1 d' with
        | .error e => .error e
        | .ok d2 => decodeTagBody descs d2
    | .text _ => decodeTagBody descs d'
    | .other => decodeTagBody descs d'
termination_by d.toks.length
decreasing_by
  · exact Nat.lt_of_le_of_lt (decodeDesc_toks_le h2) (Decoder.token_toks_lt h)
  · exact Nat.lt_of_le_of_lt (skipDepth_toks_le h2) (Decoder.token_toks_lt h)
  · exact Decoder.token_toks_lt h
  · exact Decoder.token_toks_lt h

theorem decodeTagBody_toks_le {descs : List DescRaw} {d : Decoder}
    {out : List DescRaw} {d' : Decoder}
    (h : decodeTagBody descs d = .ok (out, d')) : d'.toks.length ≤ d.toks.length := by
  induction descs, d using decodeTagBody.induct with
  | case1 descs d e htok =>
    rw [decodeTagBody] at h
    split at h <;> rename_i heq <;> rw [htok] at heq <;> cases heq
    cases h
  | case2 descs d d2 nm htok _ =>
    rw [decodeTagBody] at h
    split at h <;> rename_i heq <;> rw [htok] at heq <;> cases heq
    cases h
    exact Nat.le_of_lt (Decoder.token_toks_lt htok)
  | case3 descs d d2 se htok hdesc e hde _ =>
    rw [decodeTagBody] at h
    split at h <;> rename_i heq <;> rw [htok] at heq <;> cases heq
    simp only at h
    rw [if_pos hdesc] at h
    split at h <;> rename_i heq2 <;> rw [hde] at heq2 <;> cases heq2
    cases h
  | case4 descs d d2 se htok hdesc dsc d3 hdo _ ih =>
    rw [decodeTagBody] at h
    split at h <;> rename_i heq <;> rw [htok] at heq <;> cases heq
    simp only at h
    rw [if_pos hdesc] at h
    split at h <;> rename_i heq2 <;> rw [hdo] at heq2 <;> cases heq2
    exact Nat.le_trans (ih h)
      (Nat.le_trans (decodeDesc_toks_le hdo) (Nat.le_of_lt (Decoder.token_toks_lt htok)))
  | case5 descs d d2 se htok hns e hse _ =>
    rw [decodeTagBody] at h
    split at h <;> rename_i heq <;> rw [htok] at heq <;> cases heq
    simp only at h
    rw [if_neg hns] at h
    split at h <;> rename_i heq2 <;> rw [hse] at heq2 <;> cases heq2
    cases h
  | case6 descs d d2 se htok hns d3 hso _ ih =>
    rw [decodeTagBody] at h
    split at h <;> rename_i heq <;> rw [htok] at heq <;> cases heq
    simp only at h
    rw [if_neg hns] at h
    split at h <;> rename_i heq2 <;> rw [hso] at heq2 <;> cases heq2
    exact Nat.le_trans (ih h)
      (Nat.le_trans (skipDepth_toks_le hso) (Nat.le_of_lt (Decoder.token_toks_lt htok)))
  | case7 descs d d2 s htok _ ih =>
    rw [decodeTagBody] at h
    split at h <;> rename_i heq <;> rw [htok] at heq <;> cases heq
    exact Nat.le_trans (ih h) (Nat.le_of_lt (Decoder.token_toks_lt htok))
  | case8 descs d d2 htok _ ih =>
    rw [decodeTagBody] at h
    split at h <;> rename_i heq <;> rw [htok] at heq <;> cases heq
    exact Nat.le_trans (ih h) (Nat.le_of_lt (Decoder.token_toks_lt htok))

/-- xml.Decoder.DecodeElement for the record struct of emitTag, called with
the already-consumed open tag: attributes are applied first (name,
writable, type), then the element body is unmarshalled (desc children
collected, everything else skipped or ignored). -/
def decodeTagElement (se : StartElem) (d : Decoder) : Except GoError (TagRaw × Decoder) :=
  match applyTagAttrs ⟨"", false, ""⟩ se.attrs with
  | .error e => .error e
  | .ok fields =>
    match decodeTagBody [] d with
    | .error e => .error e
    | .ok (descs, d') => .ok (⟨fields.name, fields.writable, descs, fields.type⟩, d')

theorem decodeTagElement_toks_le {se : StartElem} {d : Decoder} {raw : TagRaw} {d' : Decoder}
    (h : decodeTagElement se d = .ok (raw, d')) : d'.toks.length ≤ d.toks.length := by
  unfold decodeTagElement at h
  split at h
  · cases h
  · split at h
    · cases h
    · rename_i fields _ descs d2 heq
      cases h
      exact decodeTagBody_toks_le heq

/-- The full record struct of emitTag after the transform step.  Fields in
Go declaration order: Name (xml name attr, json "-"), Writable, Path,
Group, Description (xml desc children, json "-"), JSONDescription (the
map, modelled as an association list in insertion order), Type. -/
structure TagStruct where
  name : String
  writable : Bool
  path : String
  group : String
  descs : List DescRaw
  jsonDescription : List (String × String)
  type : String
  deriving Repr, DecidableEq

/-- Assignment m[k] = v on a Go map modelled as an association list:
replace the value of an existing key in place, else append the new key. -/
def insertKV : List (String × String) → String → String → List (String × String)
  | [], k, v => [(k, v)]
  | (k', v') :: rest, k, v =>
    if k' = k then (k', v) :: rest else (k', v') :: insertKV rest k v

/-- The JSONDescription map built by emitTag: one assignment per desc child
in document order (a later duplicate language overwrites the earlier
value), starting from the empty non-nil map. -/
def buildDescMap (ds : List DescRaw) : List (String × String) :=
  ds.foldl (fun m dsc => insertKV m dsc.lang dsc.value) []

/-- One hexadecimal digit, lower case, as produced by encoding/json. -/
def hexDigit (n : Nat) : Char :=
  if n < 10 then Char.ofNat (48 + n) else Char.ofNat (87 + n)

/-- encoding/json string escaping with the default HTML escaping of
json.Encoder: quote, backslash, newline, carriage return and tab get
two-character escapes, the other control characters get u00XX, the three
HTML-significant characters get u-escapes, U+2028 and U+2029 get
u-escapes, everything else passes through. -/
def escapeChar (c : Char) : String :=
  if c = '"' then "\\\""
  else if c = '\\' then "\\\\"
  else if c = '\n' then "\\n"
  else if c = '\r' then "\\r"
  else if c = '\t' then "\\t"
  else if c = '<' then "\\u003c"
  else if c = '>' then "\\u003e"
  else if c = '&' then "\\u0026"
  else if c.toNat < 32 then
    "\\u00" ++ ⟨[hexDigit (c.toNat / 16), hexDigit (c.toNat % 16)]⟩
  else if c.toNat = 8232 then "\\u2028"
  else if c.toNat = 8233 then "\\u2029"
  else ⟨[c]⟩

/-- A JSON string literal for s under encoding/json escaping. -/
def jsonStr (s : String) : String :=
  "\"" ++ String.join (s.data.map escapeChar) ++ "\""

/-- Byte-lexicographic comparison of Go strings (code-point order equals
byte order for UTF-8), as used by encoding/json to sort map keys. -/
def charListLe : List Char → List Char → Bool
  | [], _ => true
  | _ :: _, [] => false
  | a :: as, b :: bs => if a < b then true else if b < a then false else charListLe as bs

/-- Insertion step of sorting map entries by key. -/
def insertSortedKey (p : String × String) : List (String × String) → List (String × String)
  | [] => [p]
  | q :: rest => if charListLe p.1.data q.1.data then p :: q :: rest else q :: insertSortedKey p rest

/-- encoding/json sorts map keys before emitting the object. -/
def sortByKey (l : List (String × String)) : List (String × String) :=
  l.foldr insertSortedKey []

/-- Comma-joined list of fragments. -/
def joinComma : List String → String
  | [] => ""
  | [s] => s
  | s :: rest => s ++ "," ++ joinComma rest

/-- The JSON object for a map[string]string: keys sorted, compact form. -/
def encodeDescMap (m : List (String × String)) : String :=
  "\x7b" ++ joinComma ((sortByKey m).map (fun p => jsonStr p.1 ++ ":" ++ jsonStr p.2)) ++ "\x7d"

/-- JSON boolean literal. -/
def encodeBool (b : Bool) : String := if b then "true" else "false"

/-- json.Marshal of the emitTag record struct: struct fields in declaration
order, Name and Description excluded by their json "-" tags, compact
output. -/
def encodeTag (t : TagStruct) : String :=
  "\x7b\"writable\":" ++ encodeBool t.writable ++
    ",\"path\":" ++ jsonStr t.path ++
    ",\"group\":" ++ jsonStr t.group ++
    ",\"description\":" ++ encodeDescMap t.jsonDescription ++
    ",\"type\":" ++ jsonStr t.type ++ "\x7d"

/-- The streamer state visible to the claims: the decoder position, the
bytes written to the sink so far, and the trace of records handed to the
JSON encoder, in order. -/
structure StreamState where
  d : Decoder
  out : String
  recs : List TagStruct
  deriving Repr, DecidableEq

/-- The prologue literal written by emitProlog. -/
def prologStr : String := "\x7b\"tags\": ["

/-- The epilogue literal written by emitEpilog. -/
def epilogStr : String := "]\x7d"

/-- emitTag from handler.go: DecodeElement for the subtree of the matched
tag open element, then Path is set to tableName:Name, Group to tableName
and JSONDescription to the map built from the desc children, and the
record is encoded to the sink; json.Encoder.Encode appends a newline after
the value.  A decode failure is wrapped and nothing is written. -/
def emitTag (tableName : String) (se : StartElem) (st : StreamState) :
    Except GoError StreamState :=
  match decodeTagElement se st.d with
  | .error e => .error (.wrap "s.Decoder.DecodeElement" e)
  | .ok (raw, d') =>
    let tag : TagStruct :=
      { name := raw.name, writable := raw.writable,
        path := tableName ++ ":" ++ raw.name, group := tableName,
        descs := raw.descs, jsonDescription := buildDescMap raw.descs,
        type := raw.type }
    .ok { d := d', out := st.out ++ encodeTag tag ++ "\n", recs := st.recs ++ [tag] }

theorem emitTag_toks_le {tableName : String} {se : StartElem} {st : StreamState}
    {st' : StreamState} (h : emitTag tableName se st = .ok st') :
    st'.d.toks.length ≤ st.d.toks.length := by
  unfold emitTag at h
  split at h
  · cases h
  · rename_i raw d2 heq
    cases h
    exact decodeTagElement_toks_le heq

/-- streamTags from handler.go: search for a tag open or a table close (the
query whose close branch, as written in search, compares against
NamedStart).  A close match returns cleanly; an open match writes the
separator comma when a record was already written in this call, then emits
the record; the comma flag is set after every iteration. -/
def streamTags (tableName : String) (comma : Bool) (st : StreamState) :
    StreamState × Option GoError :=
  match hs : search ⟨"tag", "table"⟩ st.d with
  | .error e => (st, some (.wrap "search" e))
  | .ok (res, d') =>
    if res.NamedEnd.isSome then ({ st with d := d' }, none)
    else
      match res.NamedStart with
      | some se =>
        let st1 : StreamState :=
          if comma then { st with d := d', out := st.out ++ "," } else { st with d := d' }
        match h2 : emitTag tableName se st1 with
        | .error e => (st1, some (.wrap "s.emitTag" e))
        | .ok st2 => streamTags tableName true st2
      | none => streamTags tableName true { st with d := d' }
termination_by st.d.toks.length
decreasing_by
  · have h3 := emitTag_toks_le h2
    have h4 := search_toks_lt hs
    have h5 : st1.d = d' := by unfold st1; cases comma <;> rfl
    rw [h5] at h3
    omega
  · exact search_toks_lt hs

theorem streamTags_err {tableName : String} {comma : Bool} {st : StreamState} {e : GoError}
    (h : search ⟨"tag", "table"⟩ st.d = .error e) :
    streamTags tableName comma st = (st, some (.wrap "search" e)) := by
  rw [streamTags]
  split
  · rename_i e2 heq
    rw [h] at heq
    cases heq
    rfl
  · rename_i res d' heq
    rw [h] at heq
    cases heq

theorem streamTags_close {tableName : String} {comma : Bool} {st : StreamState}
    {res : xmlSearchResult} {d' : Decoder}
    (h : search ⟨"tag", "table"⟩ st.d = .ok (res, d')) (hend : res.NamedEnd.isSome) :
    streamTags tableName comma st = ({ st with d := d' }, none) := by
  rw [streamTags]
  split
  · rename_i e2 heq
    rw [h] at heq
    cases heq
  · rename_i res2 d2 heq
    rw [h] at heq
    cases heq
    rw [if_pos hend]

theorem streamTags_emit_ok {tableName : String} {comma : Bool} {st : StreamState}
    {se : StartElem} {d' : Decoder} {st2 : StreamState}
    (h : search ⟨"tag", "table"⟩ st.d = .ok (⟨some se, none⟩, d'))
    (he : emitTag tableName se
        (if comma then { st with d := d', out := st.out ++ "," }
         else { st with d := d' }) = .ok st2) :
    streamTags tableName comma st = streamTags tableName true st2 := by
  rw [streamTags]
  split
  · rename_i e2 heq
    rw [h] at heq
    cases heq
  · rename_i res2 d2 heq
    rw [h] at heq
    cases heq
    split
    · rename_i hcond
      simp at hcond
    · simp only
      split
      · rename_i e3 heq2
        rw [he] at heq2
        cases heq2
      · rename_i st3 heq2
        rw [he] at heq2
        cases heq2
        rfl

theorem streamTags_emit_err {tableName : String} {comma : Bool} {st : StreamState}
    {se : StartElem} {d' : Decoder} {e : GoError}
    (h : search ⟨"tag", "table"⟩ st.d = .ok (⟨some se, none⟩, d'))
    (he : emitTag tableName se
        (if comma then { st with d := d', out := st.out ++ "," }
         else { st with d := d' }) = .error e) :
    streamTags tableName comma st =
      ((if comma then { st with d := d', out := st.out ++ "," } else { st with d := d' }),
        some (.wrap "s.emitTag" e)) := by
  rw [streamTags]
  split
  · rename_i e2 heq
    rw [h] at heq
    cases heq
  · rename_i res2 d2 heq
    rw [h] at heq
    cases heq
    split
    · rename_i hcond
      simp at hcond
    · simp only
      split
      · rename_i e3 heq2
        rw [he] at heq2
        cases heq2
        rfl
      · rename_i st3 heq2
        rw [he] at heq2
        cases heq2

theorem streamTags_toks_le {tableName : String} {comma : Bool} {st : StreamState} :
    (streamTags tableName comma st).1.d.toks.length ≤ st.d.toks.length := by
  induction comma, st using streamTags.induct tableName with
  | case1 comma st e hs =>
    rw [streamTags_err hs]
  | case2 comma st res d' hs hend =>
    rw [streamTags_close hs hend]
    exact Nat.le_of_lt (search_toks_lt hs)
  | case3 comma st res d' hs hend se hse st1 e he =>
    have hres : res = ⟨some se, none⟩ := by
      cases res
      simp_all [Option.not_isSome_iff_eq_none]
    rw [hres] at hs
    rw [streamTags_emit_err hs he]
    have h2 := search_toks_lt hs
    cases comma <;> simp <;> omega
  | case4 comma st res d' hs hend se hse st1 st2 he ih =>
    have hres : res = ⟨some se, none⟩ := by
      cases res
      simp_all [Option.not_isSome_iff_eq_none]
    rw [hres] at hs
    rw [streamTags_emit_ok hs he]
    have h1 := emitTag_toks_le he
    have h2 := search_toks_lt hs
    have h3 : st2.d.toks.length ≤ d'.toks.length := by
      cases comma
      · exact h1
      · exact h1
    exact Nat.le_trans ih (Nat.le_trans h3 (Nat.le_of_lt h2))
  | case5 comma st res d' hs hend hns ih =>
    rcases search_ok_shape hs with ⟨⟨se2, h1, _, _⟩, _⟩ | ⟨h1, h2, _⟩
    · rw [hns] at h1
      cases h1
    · exact absurd (by rw [h2]; rfl) hend

/-- stream from handler.go: the outer loop.  Search for a table open
element (no close target); a search failure here is formatted with the v
verb of fmt.Errorf — the resulting error is a plain string that does NOT
wrap the search error, so errors.Is cannot see io.EOF through it.  Then
the required name attribute is read (its absence is the missing-attribute
protocol error), the inner loop runs, and on its clean return the outer
loop repeats.  The nil-deref branch is unreachable: a search whose query
has an empty NamedEnd only ever returns an open match (search_ok_shape). -/
def stream (st : StreamState) : StreamState × Option GoError :=
  match hs : search ⟨"table", ""⟩ st.d with
  | .error e => (st, some (.str ("search: " ++ e.message)))
  | .ok (res, d') =>
    match res.NamedStart with
    | none => (st, some (.str "panic: nil pointer dereference"))
    | some se =>
      match attributeByLocalName "name" se.attrs with
      | none => ({ st with d := d' }, some (.str "no table name specified by exiftool"))
      | some tableName =>
        match h2 : streamTags tableName false { st with d := d' } with
        | (st', some e) => (st', some (.wrap "s.streamTags" e))
        | (st', none) => stream st'
termination_by st.d.toks.length
decreasing_by
  · have h3 : st'.d.toks.length ≤ d'.toks.length := by
      have h4 := @streamTags_toks_le tableName false { st with d := d' }
      rw [h2] at h4
      exact h4
    exact Nat.lt_of_le_of_lt h3 (search_toks_lt hs)

theorem stream_err {st : StreamState} {e : GoError}
    (h : search ⟨"table", ""⟩ st.d = .error e) :
    stream st = (st, some (.str ("search: " ++ e.message))) := by
  rw [stream]
  split
  · rename_i e2 heq
    rw [h] at heq
    cases heq
    rfl
  · rename_i res d' heq
    rw [h] at heq
    cases heq

theorem stream_noname {st : StreamState} {se : StartElem} {d' : Decoder}
    (h : search ⟨"table", ""⟩ st.d = .ok (⟨some se, none⟩, d'))
    (hn : attributeByLocalName "name" se.attrs = none) :
    stream st = ({ st with d := d' }, some (.str "no table name specified by exiftool")) := by
  rw [stream]
  split
  · rename_i e2 heq
    rw [h] at heq
    cases heq
  · rename_i res d2 heq
    rw [h] at heq
    cases heq
    simp only
    rw [hn]

theorem stream_tags_err {st : StreamState} {se : StartElem} {d' : Decoder}
    {tableName : String} {st' : StreamState} {e : GoError}
    (h : search ⟨"table", ""⟩ st.d = .ok (⟨some se, none⟩, d'))
    (hn : attributeByLocalName "name" se.attrs = some tableName)
    (ht : streamTags tableName false { st with d := d' } = (st', some e)) :
    stream st = (st', some (.wrap "s.streamTags" e)) := by
  rw [stream]
  split
  · rename_i e2 heq
    rw [h] at heq
    cases heq
  · rename_i res d2 heq
    rw [h] at heq
    cases heq
    simp only
    rw [hn]
    simp only
    split
    · rename_i st3 e3 heq2
      rw [ht] at heq2
      cases heq2
      rfl
    · rename_i st3 heq2
      rw [ht] at heq2
      cases heq2

theorem stream_tags_ok {st : StreamState} {se : StartElem} {d' : Decoder}
    {tableName : String} {st' : StreamState}
    (h : search ⟨"table", ""⟩ st.d = .ok (⟨some se, none⟩, d'))
    (hn : attributeByLocalName "name" se.attrs = some tableName)
    (ht : streamTags tableName false { st with d := d' } = (st', none)) :
    stream st = stream st' := by
  rw [stream]
  split
  · rename_i e2 heq
    rw [h] at heq
    cases heq
  · rename_i res d2 heq
    rw [h] at heq
    cases heq
    simp only
    rw [hn]
    simp only
    split
    · rename_i st3 e3 heq2
      rw [ht] at heq2
      cases heq2
    · rename_i st3 heq2
      rw [ht] at heq2
      cases heq2
      rfl

/-- The decode/transform goroutine of StreamTags: write the prologue, run
the stream loop, and — because stream never returns nil — inspect its
error: when errors.Is finds io.EOF in the chain the epilogue is written
and the goroutine records success, otherwise the error is wrapped (and the
process context cancelled, not modelled).  The first component is the
final streamer state, the second the error recorded into the shared err
variable by this goroutine. -/
def streamGoroutine (toks : List Tok) : StreamState × Option GoError :=
  match stream ⟨⟨toks, []⟩, prologStr, []⟩ with
  | (st1, some e) =>
    if errorsIs e .eof then ({ st1 with out := st1.out ++ epilogStr }, none)
    else (st1, some (.wrap "stream" e))
  | (st1, none) => (st1, none)

/-- Bytes written to the sink by a full run of the decode/transform
goroutine on the given token stream. -/
def streamerOut (toks : List Tok) : String := (streamGoroutine toks).1.out

/-- The records handed to the JSON encoder during the run, in order. -/
def streamerRecs (toks : List Tok) : List TagStruct := (streamGoroutine toks).1.recs

/-- The error recorded by the decode/transform goroutine (none on clean
termination). -/
def streamerErr (toks : List Tok) : Option GoError := (streamGoroutine toks).2

/-- The exit-wait goroutine of StreamTags: if cmd.Wait failed and no error
has been recorded yet, record the wrapped wait error; otherwise leave the
shared err variable unchanged. -/
def waitUpdate (waitErr err : Option GoError) : Option GoError :=
  match waitErr, err with
  | some w, none => some (.wrap "et.cmd.Wait" w)
  | _, e => e

/-- The combined outcome of StreamTags once both goroutines have completed,
for either completion order of the two goroutines (streamFirst true: the
decode/transform goroutine writes the shared err first and the exit-wait
goroutine then runs its guarded update; streamFirst false: the exit-wait
update runs first and the decode/transform goroutine then overwrites err
exactly when it records an error). -/
def StreamTagsResult (toks : List Tok) (waitErr : Option GoError) (streamFirst : Bool) :
    Option GoError :=
  if streamFirst then waitUpdate waitErr (streamerErr toks)
  else
    match streamerErr toks with
    | some e => some e
    | none => waitUpdate waitErr none

/-- A description child of a well-formed upstream input (section 6 of the
spec): a desc element with a lang attribute and inline text. -/
structure DescElem where
  lang : String
  value : String
  deriving Repr, DecidableEq

/-- A tag record of a well-formed upstream input: name, writable and type
attributes plus description children. -/
structure TagElem where
  name : String
  writable : Bool
  type : String
  descs : List DescElem
  deriving Repr, DecidableEq

/-- A table of a well-formed upstream input: a name attribute and the tag
records it contains. -/
structure TableElem where
  name : String
  tags : List TagElem
  deriving Repr, DecidableEq

/-- Rendering of a Go bool as the attribute text exiftool emits. -/
def boolAttr (b : Bool) : String := if b then "true" else "false"

/-- The open tag of a desc element. -/
def descStart (dsc : DescElem) : StartElem := ⟨"desc", [⟨"lang", dsc.lang⟩]⟩

/-- Token rendering of one desc element. -/
def renderDesc (dsc : DescElem) : List Tok :=
  [.start (descStart dsc), .text dsc.value, .close "desc"]

/-- The open tag of a tag element. -/
def tagStart (t : TagElem) : StartElem :=
  ⟨"tag", [⟨"name", t.name⟩, ⟨"writable", boolAttr t.writable⟩, ⟨"type", t.type⟩]⟩

/-- Token rendering of one tag element with its subtree. -/
def renderTag (t : TagElem) : List Tok :=
  .start (tagStart t) :: (t.descs.flatMap renderDesc ++ [.close "tag"])

/-- The open tag of a table element. -/
def tableStart (tb : TableElem) : StartElem := ⟨"table", [⟨"name", tb.name⟩]⟩

/-- Token rendering of one table element with its subtree. -/
def renderTable (tb : TableElem) : List Tok :=
  .start (tableStart tb) :: (tb.tags.flatMap renderTag ++ [.close "table"])

/-- Token rendering of a whole well-formed input: the tables in sequence,
terminated by end of input. -/
def renderInput (tbs : List TableElem) : List Tok := tbs.flatMap renderTable

/-- The raw desc fields extracted from one rendered desc element. -/
def descRawOf (dsc : DescElem) : DescRaw := ⟨dsc.lang, dsc.value⟩

/-- The record emitTag produces for tag element t when the surrounding
streamTags call carries table name g. -/
def mkTag (g : String) (t : TagElem) : TagStruct :=
  { name := t.name, writable := t.writable,
    path := g ++ ":" ++ t.name, group := g,
    descs := t.descs.map descRawOf,
    jsonDescription := buildDescMap (t.descs.map descRawOf),
    type := t.type }

/-- The encoded JSON objects for a list of tag elements under group g. -/
def encList (g : String) (ts : List TagElem) : List String :=
  ts.map (fun t => encodeTag (mkTag g t))

/-- The byte shape of the streamed array body: first object followed by a
newline, every further object preceded by a comma and followed by a
newline; comma says whether a record was already written before this
call. -/
def bodyRender : Bool → List String → String
  | _, [] => ""
  | comma, e :: es => (if comma then "," else "") ++ e ++ "\n" ++ bodyRender true es

theorem parse_boolAttr (b : Bool) : goParseBool (goTrimSpace (boolAttr b)) = .ok b := by
  cases b <;> rfl

theorem applyTagAttrs_render (t : TagElem) :
    applyTagAttrs ⟨"", false, ""⟩ (tagStart t).attrs = .ok ⟨t.name, t.writable, t.type⟩ := by
  obtain ⟨n, w, ty, ds⟩ := t
  cases w <;> rfl

theorem descAttrLang_render (dsc : DescElem) : descAttrLang (descStart dsc).attrs = dsc.lang := by
  rfl

theorem decodeDescBody_render (acc v : String) (rest : List Tok) (stk : List String) :
    decodeDescBody 0 acc ⟨.text v :: .close "desc" :: rest, "desc" :: stk⟩ =
      .ok (acc ++ v, ⟨rest, stk⟩) := by
  rw [decodeDescBody]
  simp only [Decoder.token]
  rw [decodeDescBody]
  simp [Decoder.token]

theorem decodeDesc_render (dsc : DescElem) (rest : List Tok) (stk : List String) :
    decodeDesc (descStart dsc) ⟨.text dsc.value :: .close "desc" :: rest, "desc" :: stk⟩ =
      .ok (descRawOf dsc, ⟨rest, stk⟩) := by
  unfold decodeDesc
  rw [decodeDescBody_render]
  simp [descAttrLang_render, descRawOf]

theorem token_start (se : StartElem) (r : List Tok) (stk : List String) :
    Decoder.token ⟨.start se :: r, stk⟩ = .ok (.start se, ⟨r, se.name :: stk⟩) := rfl

theorem token_close (n : String) (r : List Tok) (stk : List String) :
    Decoder.token ⟨.close n :: r, n :: stk⟩ = .ok (.close n, ⟨r, stk⟩) := by
  simp [Decoder.token]

theorem token_text (s : String) (r : List Tok) (stk : List String) :
    Decoder.token ⟨.text s :: r, stk⟩ = .ok (.text s, ⟨r, stk⟩) := rfl

theorem token_eof : Decoder.token ⟨[], []⟩ = .error .eof := rfl

theorem decodeTagBody_step_close {acc : List DescRaw} {d : Decoder} {n : String} {d' : Decoder}
    (htok : d.token = .ok (.close n, d')) :
    decodeTagBody acc d = .ok (acc, d') := by
  rw [decodeTagBody]
  split <;> rename_i heq <;> rw [htok] at heq <;> cases heq
  rfl

theorem decodeTagBody_step_desc {acc : List DescRaw} {d : Decoder} {se : StartElem}
    {d' : Decoder} {dsc : DescRaw} {d2 : Decoder}
    (htok : d.token = .ok (.start se, d')) (hn : se.name = "desc")
    (hd : decodeDesc se d' = .ok (dsc, d2)) :
    decodeTagBody acc d = decodeTagBody (acc ++ [dsc]) d2 := by
  rw [decodeTagBody]
  split <;> rename_i heq <;> rw [htok] at heq <;> cases heq
  simp only
  rw [if_pos hn]
  split
  · rename_i e heq2
    rw [hd] at heq2
    cases heq2
  · rename_i dsc2 d3 heq2
    rw [hd] at heq2
    cases heq2
    rfl

theorem decodeTagBody_render (ds : List DescElem) (acc : List DescRaw)
    (rest : List Tok) (stk : List String) :
    decodeTagBody acc ⟨ds.flatMap renderDesc ++ .close "tag" :: rest, "tag" :: stk⟩ =
      .ok (acc ++ ds.map descRawOf, ⟨rest, stk⟩) := by
  induction ds generalizing acc with
  | nil =>
    simp only [List.flatMap_nil, List.nil_append, List.map_nil, List.append_nil]
    exact decodeTagBody_step_close (token_close "tag" rest stk)
  | cons dsc ds ih =>
    have hlist :
        ((dsc :: ds).flatMap renderDesc ++ .close "tag" :: rest : List Tok) =
          .start (descStart dsc) :: .text dsc.value :: .close "desc" ::
            (ds.flatMap renderDesc ++ .close "tag" :: rest) := by
      simp [renderDesc]
    rw [hlist]
    rw [decodeTagBody_step_desc (token_start (descStart dsc) _ _) rfl
      (decodeDesc_render dsc (ds.flatMap renderDesc ++ .close "tag" :: rest) ("tag" :: stk))]
    rw [ih (acc ++ [descRawOf dsc])]
    simp

theorem decodeTagElement_render (t : TagElem) (rest : List Tok) (stk : List String) :
    decodeTagElement (tagStart t)
        ⟨t.descs.flatMap renderDesc ++ .close "tag" :: rest, "tag" :: stk⟩ =
      .ok (⟨t.name, t.writable, t.descs.map descRawOf, t.type⟩, ⟨rest, stk⟩) := by
  unfold decodeTagElement
  rw [applyTagAttrs_render]
  rw [decodeTagBody_render t.descs [] rest stk]
  simp

/-- The record-field content of an emitTag call on a rendered tag. -/
theorem emitTag_render (g : String) (t : TagElem) (rest : List Tok) (out : String)
    (recs : List TagStruct) :
    emitTag g (tagStart t) ⟨⟨t.descs.flatMap renderDesc ++ .close "tag" :: rest, ["tag", "table"]⟩, out, recs⟩ =
      .ok ⟨⟨rest, ["table"]⟩, out ++ encodeTag (mkTag g t) ++ "\n", recs ++ [mkTag g t]⟩ := by
  unfold emitTag
  rw [show (⟨⟨t.descs.flatMap renderDesc ++ .close "tag" :: rest, ["tag", "table"]⟩, out, recs⟩ :
      StreamState).d = ⟨t.descs.flatMap renderDesc ++ .close "tag" :: rest, "tag" :: ["table"]⟩ from rfl]
  rw [decodeTagElement_render t rest ["table"]]
  simp [mkTag]

/-- Remaining token stream seen by the inner loop: the rest of the current
table's tags, the table close tag, then the remaining tables. -/
def innerToks (ts : List TagElem) (tbs : List TableElem) : List Tok :=
  ts.flatMap renderTag ++ .close "table" :: renderInput tbs

theorem search_inner_tag (t : TagElem) (more : List Tok) :
    search ⟨"tag", "table"⟩ ⟨.start (tagStart t) :: more, ["table"]⟩ =
      .ok (⟨some (tagStart t), none⟩, ⟨more, ["tag", "table"]⟩) := by
  rw [search_step_start (token_start (tagStart t) more ["table"])]
  simp [tagStart]

theorem search_inner_empty :
    search ⟨"tag", "table"⟩ ⟨[.close "table"], ["table"]⟩ =
      .error (.wrap "decoder.Token" .eof) := by
  rw [search_step_close (token_close "table" [] [])]
  rw [if_neg (by decide), if_neg (by decide)]
  rw [search_err token_eof]

theorem search_inner_boundary (tb : TableElem) (tbs : List TableElem) :
    search ⟨"tag", "table"⟩ ⟨.close "table" :: renderInput (tb :: tbs), ["table"]⟩ =
      search ⟨"tag", "table"⟩ ⟨innerToks tb.tags tbs, ["table"]⟩ := by
  rw [search_step_close (token_close "table" (renderInput (tb :: tbs)) [])]
  rw [if_neg (by decide), if_neg (by decide)]
  have hlist : renderInput (tb :: tbs) =
      .start (tableStart tb) :: (tb.tags.flatMap renderTag ++ [.close "table"] ++ renderInput tbs) := by
    simp [renderInput, renderTable]
  rw [hlist]
  rw [search_step_start (token_start (tableStart tb) _ _)]
  rw [if_neg (by decide)]
  rw [if_neg (show ¬(tableStart tb).name = (⟨"tag", "table"⟩ : xmlQuery).NamedStart by
    simp [tableStart])]
  have hlist2 : (tb.tags.flatMap renderTag ++ [.close "table"] ++ renderInput tbs : List Tok) =
      innerToks tb.tags tbs := by
    simp [innerToks]
  rw [hlist2]
  rfl

theorem streamTags_boundary (g : String) (comma : Bool) (out : String) (recs : List TagStruct)
    (tb : TableElem) (tbs : List TableElem) :
    (streamTags g comma ⟨⟨innerToks [] (tb :: tbs), ["table"]⟩, out, recs⟩).1.out =
        (streamTags g comma ⟨⟨innerToks tb.tags tbs, ["table"]⟩, out, recs⟩).1.out ∧
      (streamTags g comma ⟨⟨innerToks [] (tb :: tbs), ["table"]⟩, out, recs⟩).1.recs =
        (streamTags g comma ⟨⟨innerToks tb.tags tbs, ["table"]⟩, out, recs⟩).1.recs ∧
      (streamTags g comma ⟨⟨innerToks [] (tb :: tbs), ["table"]⟩, out, recs⟩).2 =
        (streamTags g comma ⟨⟨innerToks tb.tags tbs, ["table"]⟩, out, recs⟩).2 := by
  have hsearch :
      search ⟨"tag", "table"⟩ (⟨innerToks [] (tb :: tbs), ["table"]⟩ : Decoder) =
        search ⟨"tag", "table"⟩ ⟨innerToks tb.tags tbs, ["table"]⟩ := by
    have h0 : (innerToks [] (tb :: tbs) : List Tok) = .close "table" :: renderInput (tb :: tbs) := by
      simp [innerToks]
    rw [h0]
    exact search_inner_boundary tb tbs
  cases hres : search ⟨"tag", "table"⟩ (⟨innerToks tb.tags tbs, ["table"]⟩ : Decoder) with
  | error e =>
    rw [@streamTags_err g comma ⟨⟨innerToks [] (tb :: tbs), ["table"]⟩, out, recs⟩ e
      (hsearch.trans hres)]
    rw [@streamTags_err g comma ⟨⟨innerToks tb.tags tbs, ["table"]⟩, out, recs⟩ e hres]
    exact ⟨rfl, rfl, rfl⟩
  | ok p =>
    obtain ⟨res, d'⟩ := p
    rcases search_ok_shape hres with ⟨⟨se, h1, _, _⟩, h2⟩ | ⟨h1, h2, _⟩
    · have hres2 : res = ⟨some se, none⟩ := by
        cases res
        simp_all
      rw [hres2] at hres
      have hresA : search ⟨"tag", "table"⟩
          (⟨innerToks [] (tb :: tbs), ["table"]⟩ : Decoder) = .ok (⟨some se, none⟩, d') :=
        hsearch.trans hres
      cases hemit : emitTag g se
          (if comma then (⟨d', out ++ ",", recs⟩ : StreamState) else ⟨d', out, recs⟩) with
      | error e =>
        rw [@streamTags_emit_err g comma ⟨⟨innerToks [] (tb :: tbs), ["table"]⟩, out, recs⟩
          se d' e hresA hemit]
        rw [@streamTags_emit_err g comma ⟨⟨innerToks tb.tags tbs, ["table"]⟩, out, recs⟩
          se d' e hres hemit]
        exact ⟨rfl, rfl, rfl⟩
      | ok st2 =>
        rw [@streamTags_emit_ok g comma ⟨⟨innerToks [] (tb :: tbs), ["table"]⟩, out, recs⟩
          se d' st2 hresA hemit]
        rw [@streamTags_emit_ok g comma ⟨⟨innerToks tb.tags tbs, ["table"]⟩, out, recs⟩
          se d' st2 hres hemit]
        exact ⟨rfl, rfl, rfl⟩
    · have hend : res.NamedEnd.isSome := by
        rw [h2]
        rfl
      have hresA : search ⟨"tag", "table"⟩
          (⟨innerToks [] (tb :: tbs), ["table"]⟩ : Decoder) = .ok (res, d') :=
        hsearch.trans hres
      rw [@streamTags_close g comma ⟨⟨innerToks [] (tb :: tbs), ["table"]⟩, out, recs⟩
        res d' hresA hend]
      rw [@streamTags_close g comma ⟨⟨innerToks tb.tags tbs, ["table"]⟩, out, recs⟩
        res d' hres hend]
      exact ⟨rfl, rfl, rfl⟩

/-- The inner-loop error on which every rendered run ends: end of input
reached by the search inside streamTags, wrapped with the w verb twice. -/
def innerEofErr : GoError := .wrap "search" (.wrap "decoder.Token" .eof)

theorem streamTags_render_cons (t : TagElem) (ts : List TagElem) (tbs : List TableElem)
    (g : String)
    (ih : ∀ (comma : Bool) (out : String) (recs : List TagStruct),
      (streamTags g comma ⟨⟨innerToks ts tbs, ["table"]⟩, out, recs⟩).1.out =
          out ++ bodyRender comma (encList g (ts ++ tbs.flatMap (fun tb => tb.tags))) ∧
        (streamTags g comma ⟨⟨innerToks ts tbs, ["table"]⟩, out, recs⟩).1.recs =
          recs ++ ((ts ++ tbs.flatMap (fun tb => tb.tags)).map (mkTag g)) ∧
        (streamTags g comma ⟨⟨innerToks ts tbs, ["table"]⟩, out, recs⟩).2 = some innerEofErr) :
    ∀ (comma : Bool) (out : String) (recs : List TagStruct),
      (streamTags g comma ⟨⟨innerToks (t :: ts) tbs, ["table"]⟩, out, recs⟩).1.out =
          out ++ bodyRender comma (encList g ((t :: ts) ++ tbs.flatMap (fun tb => tb.tags))) ∧
        (streamTags g comma ⟨⟨innerToks (t :: ts) tbs, ["table"]⟩, out, recs⟩).1.recs =
          recs ++ (((t :: ts) ++ tbs.flatMap (fun tb => tb.tags)).map (mkTag g)) ∧
        (streamTags g comma ⟨⟨innerToks (t :: ts) tbs, ["table"]⟩, out, recs⟩).2 =
          some innerEofErr := by
  intro comma out recs
  have hlist : innerToks (t :: ts) tbs =
      .start (tagStart t) :: (t.descs.flatMap renderDesc ++ .close "tag" :: innerToks ts tbs) := by
    simp [innerToks, renderTag]
  have hresA : search ⟨"tag", "table"⟩
      (⟨innerToks (t :: ts) tbs, ["table"]⟩ : Decoder) =
      .ok (⟨some (tagStart t), none⟩,
        ⟨t.descs.flatMap renderDesc ++ .close "tag" :: innerToks ts tbs, ["tag", "table"]⟩) := by
    rw [hlist]
    exact search_inner_tag t _
  have hemit : emitTag g (tagStart t)
      (if comma then
        (⟨⟨t.descs.flatMap renderDesc ++ .close "tag" :: innerToks ts tbs, ["tag", "table"]⟩,
          out ++ ",", recs⟩ : StreamState)
       else
        ⟨⟨t.descs.flatMap renderDesc ++ .close "tag" :: innerToks ts tbs, ["tag", "table"]⟩,
          out, recs⟩) =
      .ok ⟨⟨innerToks ts tbs, ["table"]⟩,
        (if comma then out ++ "," else out) ++ encodeTag (mkTag g t) ++ "\n",
        recs ++ [mkTag g t]⟩ := by
    cases comma
    · exact emitTag_render g t (innerToks ts tbs) out recs
    · exact emitTag_render g t (innerToks ts tbs) (out ++ ",") recs
  rw [@streamTags_emit_ok g comma ⟨⟨innerToks (t :: ts) tbs, ["table"]⟩, out, recs⟩
    (tagStart t)
    ⟨t.descs.flatMap renderDesc ++ .close "tag" :: innerToks ts tbs, ["tag", "table"]⟩
    ⟨⟨innerToks ts tbs, ["table"]⟩,
      (if comma then out ++ "," else out) ++ encodeTag (mkTag g t) ++ "\n",
      recs ++ [mkTag g t]⟩
    hresA hemit]
  obtain ⟨ihOut, ihRecs, ihErr⟩ :=
    ih true ((if comma then out ++ "," else out) ++ encodeTag (mkTag g t) ++ "\n")
      (recs ++ [mkTag g t])
  refine ⟨?_, ?_, ?_⟩
  · rw [ihOut]
    have hcons : encList g ((t :: ts) ++ tbs.flatMap (fun tb => tb.tags)) =
        encodeTag (mkTag g t) :: encList g (ts ++ tbs.flatMap (fun tb => tb.tags)) := by
      simp [encList]
    rw [hcons]
    show _ = out ++ ((if comma then "," else "") ++ encodeTag (mkTag g t) ++ "\n" ++
      bodyRender true (encList g (ts ++ tbs.flatMap (fun tb => tb.tags))))
    cases comma <;> simp [String.append_assoc]
  · rw [ihRecs]
    simp
  · exact ihErr

/-- Full behaviour of the inner loop from the canonical mid-run state: all
remaining tags of the current table and every tag of every later table are
emitted in document order, all with the table name the call was given; the
loop always ends with the twice-wrapped io.EOF from its own search. -/
theorem streamTags_render (tbs : List TableElem) :
    ∀ (ts : List TagElem) (g : String) (comma : Bool) (out : String) (recs : List TagStruct),
      (streamTags g comma ⟨⟨innerToks ts tbs, ["table"]⟩, out, recs⟩).1.out =
          out ++ bodyRender comma (encList g (ts ++ tbs.flatMap (fun tb => tb.tags))) ∧
        (streamTags g comma ⟨⟨innerToks ts tbs, ["table"]⟩, out, recs⟩).1.recs =
          recs ++ ((ts ++ tbs.flatMap (fun tb => tb.tags)).map (mkTag g)) ∧
        (streamTags g comma ⟨⟨innerToks ts tbs, ["table"]⟩, out, recs⟩).2 = some innerEofErr := by
  induction tbs with
  | nil =>
    intro ts
    induction ts with
    | nil =>
      intro g comma out recs
      have h0 : innerToks [] ([] : List TableElem) = [.close "table"] := by
        simp [innerToks, renderInput]
      rw [@streamTags_err g comma ⟨⟨innerToks [] [], ["table"]⟩, out, recs⟩
        (.wrap "decoder.Token" .eof) (by rw [show (⟨⟨innerToks [] [], ["table"]⟩, out, recs⟩ :
          StreamState).d = ⟨innerToks [] [], ["table"]⟩ from rfl, h0]; exact search_inner_empty)]
      refine ⟨?_, ?_, rfl⟩
      · simp [encList, bodyRender]
      · simp
    | cons t ts ihIn =>
      intro g
      exact streamTags_render_cons t ts [] g (ihIn g)
  | cons tb rest ihOut =>
    intro ts
    induction ts with
    | nil =>
      intro g comma out recs
      obtain ⟨b1, b2, b3⟩ := streamTags_boundary g comma out recs tb rest
      obtain ⟨i1, i2, i3⟩ := ihOut tb.tags g comma out recs
      refine ⟨?_, ?_, ?_⟩
      · rw [b1, i1]
        simp
      · rw [b2, i2]
        simp
      · rw [b3, i3]
    | cons t ts ihIn =>
      intro g
      exact streamTags_render_cons t ts (tb :: rest) g (ihIn g)

theorem search_outer_table (tb : TableElem) (rest : List TableElem) :
    search ⟨"table", ""⟩ ⟨renderInput (tb :: rest), []⟩ =
      .ok (⟨some (tableStart tb), none⟩, ⟨innerToks tb.tags rest, ["table"]⟩) := by
  have hlist : renderInput (tb :: rest) =
      .start (tableStart tb) :: (tb.tags.flatMap renderTag ++ [.close "table"] ++ renderInput rest) := by
    simp [renderInput, renderTable]
  rw [hlist]
  rw [search_step_start (token_start (tableStart tb) _ _)]
  rw [if_neg (by decide)]
  rw [if_pos (show (tableStart tb).name = (⟨"table", ""⟩ : xmlQuery).NamedStart from rfl)]
  have hlist2 : (tb.tags.flatMap renderTag ++ [.close "table"] ++ renderInput rest : List Tok) =
      innerToks tb.tags rest := by
    simp [innerToks]
  rw [hlist2]
  rfl

theorem stream_render (tb : TableElem) (rest : List TableElem) :
    (stream ⟨⟨renderInput (tb :: rest), []⟩, prologStr, []⟩).1.out =
        prologStr ++ bodyRender false (encList tb.name (tb.tags ++ rest.flatMap (fun x => x.tags))) ∧
      (stream ⟨⟨renderInput (tb :: rest), []⟩, prologStr, []⟩).1.recs =
        ((tb.tags ++ rest.flatMap (fun x => x.tags)).map (mkTag tb.name)) ∧
      (stream ⟨⟨renderInput (tb :: rest), []⟩, prologStr, []⟩).2 =
        some (.wrap "s.streamTags" innerEofErr) := by
  obtain ⟨i1, i2, i3⟩ := streamTags_render rest tb.tags tb.name false prologStr []
  have hpair : streamTags tb.name false ⟨⟨innerToks tb.tags rest, ["table"]⟩, prologStr, []⟩ =
      ((streamTags tb.name false ⟨⟨innerToks tb.tags rest, ["table"]⟩, prologStr, []⟩).1,
        some innerEofErr) := by
    rw [← i3]
  rw [@stream_tags_err ⟨⟨renderInput (tb :: rest), []⟩, prologStr, []⟩ (tableStart tb)
    ⟨innerToks tb.tags rest, ["table"]⟩ tb.name
    (streamTags tb.name false ⟨⟨innerToks tb.tags rest, ["table"]⟩, prologStr, []⟩).1
    innerEofErr (search_outer_table tb rest) rfl hpair]
  refine ⟨i1, ?_, rfl⟩
  rw [i2]
  simp

theorem streamGoroutine_render (tb : TableElem) (rest : List TableElem) :
    streamGoroutine (renderInput (tb :: rest)) =
      (⟨(stream ⟨⟨renderInput (tb :: rest), []⟩, prologStr, []⟩).1.d,
        prologStr ++ bodyRender false (encList tb.name (tb.tags ++ rest.flatMap (fun x => x.tags)))
          ++ epilogStr,
        (tb.tags ++ rest.flatMap (fun x => x.tags)).map (mkTag tb.name)⟩, none) := by
  obtain ⟨s1, s2, s3⟩ := stream_render tb rest
  rcases hq : stream ⟨⟨renderInput (tb :: rest), []⟩, prologStr, []⟩ with ⟨st1, e⟩
  rw [hq] at s1 s2 s3
  simp only at s1 s2 s3
  unfold streamGoroutine
  rw [hq]
  subst s3
  simp only
  rw [if_pos (show errorsIs (.wrap "s.streamTags" innerEofErr) .eof = true from rfl)]
  rw [s1, s2]

theorem streamerOut_render (tb : TableElem) (rest : List TableElem) :
    streamerOut (renderInput (tb :: rest)) =
      prologStr ++ bodyRender false (encList tb.name (tb.tags ++ rest.flatMap (fun x => x.tags)))
        ++ epilogStr := by
  unfold streamerOut
  rw [streamGoroutine_render]

theorem streamerRecs_render (tb : TableElem) (rest : List TableElem) :
    streamerRecs (renderInput (tb :: rest)) =
      (tb.tags ++ rest.flatMap (fun x => x.tags)).map (mkTag tb.name) := by
  unfold streamerRecs
  rw [streamGoroutine_render]

theorem streamerErr_render (tb : TableElem) (rest : List TableElem) :
    streamerErr (renderInput (tb :: rest)) = none := by
  unfold streamerErr
  rw [streamGoroutine_render]

/-- The per-record shape enforced by emitTag, independent of the input:
group is the table name of the call, path is group, colon, raw name, and
the description map is built from the desc children. -/
theorem emitTag_rec_shape {g : String} {se : StartElem} {st st' : StreamState}
    (h : emitTag g se st = .ok st') :
    ∃ tag, st'.recs = st.recs ++ [tag] ∧ tag.group = g ∧
      tag.path = tag.group ++ ":" ++ tag.name ∧
      tag.jsonDescription = buildDescMap tag.descs := by
  unfold emitTag at h
  split at h
  · cases h
  · rename_i raw d2 heq
    cases h
    exact ⟨_, rfl, rfl, rfl, rfl⟩

theorem streamTags_recs_shape {tableName : String} {comma : Bool} {st : StreamState} :
    ∀ r ∈ (streamTags tableName comma st).1.recs,
      r ∈ st.recs ∨ (r.group = tableName ∧ r.path = r.group ++ ":" ++ r.name ∧
        r.jsonDescription = buildDescMap r.descs) := by
  induction comma, st using streamTags.induct tableName with
  | case1 comma st e hs =>
    rw [streamTags_err hs]
    intro r hr
    exact Or.inl hr
  | case2 comma st res d' hs hend =>
    rw [streamTags_close hs hend]
    intro r hr
    exact Or.inl hr
  | case3 comma st res d' hs hend se hse st1 e he =>
    have hres : res = ⟨some se, none⟩ := by
      cases res
      simp_all [Option.not_isSome_iff_eq_none]
    rw [hres] at hs
    rw [streamTags_emit_err hs he]
    intro r hr
    cases comma <;> exact Or.inl hr
  | case4 comma st res d' hs hend se hse st1 st2 he ih =>
    have hres : res = ⟨some se, none⟩ := by
      cases res
      simp_all [Option.not_isSome_iff_eq_none]
    rw [hres] at hs
    rw [streamTags_emit_ok hs he]
    intro r hr
    rcases ih r hr with hmem | hshape
    · obtain ⟨tag, hrecs, hgroup, hpath, hjson⟩ := emitTag_rec_shape he
      rw [hrecs] at hmem
      rcases List.mem_append.mp hmem with hmem2 | hmem2
      · cases comma <;> exact Or.inl hmem2
      · rcases List.mem_singleton.mp hmem2 with rfl
        exact Or.inr ⟨hgroup, hpath, hjson⟩
    · exact Or.inr hshape
  | case5 comma st res d' hs hend hns ih =>
    rcases search_ok_shape hs with ⟨⟨se2, h1, _, _⟩, _⟩ | ⟨h1, h2, _⟩
    · rw [hns] at h1
      cases h1
    · exact absurd (by rw [h2]; rfl) hend

theorem stream_recs_shape {st : StreamState} :
    ∀ r ∈ (stream st).1.recs,
      r ∈ st.recs ∨ (r.path = r.group ++ ":" ++ r.name ∧
        r.jsonDescription = buildDescMap r.descs) := by
  induction st using stream.induct with
  | case1 st e hs =>
    rw [stream_err hs]
    intro r hr
    exact Or.inl hr
  | case2 st res d' hs hns =>
    rw [stream]
    intro r hr
    rw [hs] at hr
    simp only at hr
    rw [hns] at hr
    exact Or.inl hr
  | case3 st res d' hs se hse hn =>
    have hres : res = ⟨some se, none⟩ := by
      rcases search_ok_shape hs with ⟨⟨se2, h1, _, _⟩, h2⟩ | ⟨h1, h2, hne⟩
      · cases res
        simp_all
      · exact absurd rfl hne
    rw [hres] at hs
    rw [stream_noname hs hn]
    intro r hr
    exact Or.inl hr
  | case4 st res d' hs se hse tableName hn st' e ht =>
    have hres : res = ⟨some se, none⟩ := by
      rcases search_ok_shape hs with ⟨⟨se2, h1, _, _⟩, h2⟩ | ⟨h1, h2, hne⟩
      · cases res
        simp_all
      · exact absurd rfl hne
    rw [hres] at hs
    rw [stream_tags_err hs hn ht]
    intro r hr
    have h3 := streamTags_recs_shape r (by rw [ht]; exact hr)
    rcases h3 with hmem | hshape
    · exact Or.inl hmem
    · exact Or.inr ⟨hshape.2.1, hshape.2.2⟩
  | case5 st res d' hs se hse tableName hn st' ht ih =>
    have hres : res = ⟨some se, none⟩ := by
      rcases search_ok_shape hs with ⟨⟨se2, h1, _, _⟩, h2⟩ | ⟨h1, h2, hne⟩
      · cases res
        simp_all
      · exact absurd rfl hne
    rw [hres] at hs
    rw [stream_tags_ok hs hn ht]
    intro r hr
    rcases ih r hr with hmem | hshape
    · have h3 := streamTags_recs_shape r (by rw [ht]; exact hmem)
      rcases h3 with hmem2 | hshape2
      · exact Or.inl hmem2
      · exact Or.inr ⟨hshape2.2.1, hshape2.2.2⟩
    · exact Or.inr hshape

theorem streamer_recs_shape (toks : List Tok) :
    ∀ r ∈ streamerRecs toks,
      r.path = r.group ++ ":" ++ r.name ∧ r.jsonDescription = buildDescMap r.descs := by
  intro r hr
  unfold streamerRecs streamGoroutine at hr
  rcases hq : stream ⟨⟨toks, []⟩, prologStr, []⟩ with ⟨st1, e⟩
  rw [hq] at hr
  have hr1 : r ∈ st1.recs := by
    cases e with
    | none => simpa using hr
    | some e2 =>
      simp only at hr
      by_cases hE : errorsIs e2 .eof = true
      · rw [if_pos hE] at hr
        simpa using hr
      · rw [if_neg hE] at hr
        simpa using hr
  have h3 := stream_recs_shape r (by rw [hq]; exact hr1)
  rcases h3 with habs | hshape
  · simp at habs
  · exact hshape

theorem insertKV_keys (m : List (String × String)) (k v : String) :
    (insertKV m k v).map Prod.fst =
      if k ∈ m.map Prod.fst then m.map Prod.fst else m.map Prod.fst ++ [k] := by
  induction m with
  | nil => simp [insertKV]
  | cons p m ih =>
    obtain ⟨k', v'⟩ := p
    by_cases hk : k' = k
    · subst hk
      simp [insertKV]
    · simp only [insertKV, if_neg hk, List.map_cons, ih]
      by_cases hin : k ∈ m.map Prod.fst
      · rw [if_pos hin, if_pos (by simp [hin])]
      · rw [if_neg hin, if_neg (by
          simp only [List.mem_cons]
          rintro (h1 | h2)
          · exact hk h1.symm
          · exact hin h2)]
        simp

theorem descFold_keys_mem (ds : List DescRaw) :
    ∀ (acc : List (String × String)) (l : String),
      (l ∈ (ds.foldl (fun m dsc => insertKV m dsc.lang dsc.value) acc).map Prod.fst ↔
        l ∈ acc.map Prod.fst ∨ l ∈ ds.map (fun d => d.lang)) := by
  induction ds with
  | nil =>
    intro acc l
    simp
  | cons dsc ds ih =>
    intro acc l
    rw [List.foldl_cons, ih]
    rw [insertKV_keys]
    by_cases hin : dsc.lang ∈ acc.map Prod.fst
    · rw [if_pos hin]
      have h4 : l = dsc.lang → l ∈ acc.map Prod.fst := fun h => h ▸ hin
      simp only [List.map_cons, List.mem_cons]
      tauto
    · rw [if_neg hin]
      simp only [List.mem_append, List.map_cons, List.mem_cons, List.mem_singleton]
      tauto

theorem descFold_keys_nodup (ds : List DescRaw) :
    ∀ (acc : List (String × String)), (acc.map Prod.fst).Nodup →
      ((ds.foldl (fun m dsc => insertKV m dsc.lang dsc.value) acc).map Prod.fst).Nodup := by
  induction ds with
  | nil =>
    intro acc h
    simpa using h
  | cons dsc ds ih =>
    intro acc h
    rw [List.foldl_cons]
    refine ih _ ?_
    rw [insertKV_keys]
    by_cases hin : dsc.lang ∈ acc.map Prod.fst
    · rw [if_pos hin]
      exact h
    · rw [if_neg hin]
      simp [List.nodup_append, h, hin]

theorem buildDescMap_keys_nodup (ds : List DescRaw) :
    ((buildDescMap ds).map Prod.fst).Nodup :=
  descFold_keys_nodup ds [] (by simp)

theorem buildDescMap_keys_mem (ds : List DescRaw) (l : String) :
    l ∈ (buildDescMap ds).map Prod.fst ↔ l ∈ ds.map (fun d => d.lang) := by
  unfold buildDescMap
  rw [descFold_keys_mem]
  simp

theorem token_other (r : List Tok) (stk : List String) :
    Decoder.token ⟨.other :: r, stk⟩ = .ok (.other, ⟨r, stk⟩) := rfl

/-- C5: when both concurrent activities of StreamTags have completed — in
either completion order — the returned error is the decode/transform
goroutine's error whenever that goroutine recorded one (even when the
subprocess wait also failed); only if the decode/transform goroutine
succeeded is the wrapped exit-wait error returned, and if both succeed the
result is success. -/
theorem C5_error_combination (toks : List Tok) (waitErr : Option GoError) (streamFirst : Bool) :
    StreamTagsResult toks waitErr streamFirst =
      (match streamerErr toks with
       | some e => some e
       | none => waitErr.map (GoError.wrap "et.cmd.Wait")) := by
  cases streamFirst <;> cases hE : streamerErr toks <;> cases waitErr <;>
    simp [StreamTagsResult, waitUpdate, hE]

/-- C7: a successful search result has exactly one of the open match or the
close match set; the open match carries an open token whose local name is
the query's NamedStart; the close match is produced only for a close token
whose local name equals NamedStart — the close-match field NamedEnd acts
only as an enable flag (it must be nonempty) and is never itself compared
against the token name. -/
theorem C7_search_result_exclusive (q : xmlQuery) (d : Decoder) (r : xmlSearchResult)
    (d' : Decoder) (h : search q d = .ok (r, d')) :
    ((∃ se, r.NamedStart = some se ∧ se.name = q.NamedStart) ∧ r.NamedEnd = none) ∨
      (r.NamedStart = none ∧ r.NamedEnd = some q.NamedStart ∧ q.NamedEnd ≠ "") := by
  rcases search_ok_shape h with ⟨⟨se, h1, h2, _⟩, h3⟩ | hclose
  · exact Or.inl ⟨⟨se, h1, h2⟩, h3⟩
  · exact Or.inr hclose

/-- Witness for C7 at a concrete query and token stream: the inner-loop
query matching an immediate tag open token. -/
theorem C7_search_result_exclusive_witness :
    search ⟨"tag", "table"⟩ ⟨[.start ⟨"tag", []⟩], []⟩ =
        .ok (⟨some ⟨"tag", []⟩, none⟩, ⟨[], ["tag"]⟩) ∧
      (((∃ se, (⟨some ⟨"tag", []⟩, none⟩ : xmlSearchResult).NamedStart = some se ∧
            se.name = (⟨"tag", "table"⟩ : xmlQuery).NamedStart) ∧
          (⟨some ⟨"tag", []⟩, none⟩ : xmlSearchResult).NamedEnd = none) ∨
        ((⟨some ⟨"tag", []⟩, none⟩ : xmlSearchResult).NamedStart = none ∧
          (⟨some ⟨"tag", []⟩, none⟩ : xmlSearchResult).NamedEnd =
            some (⟨"tag", "table"⟩ : xmlQuery).NamedStart ∧
          (⟨"tag", "table"⟩ : xmlQuery).NamedEnd ≠ "")) := by
  have hs : search ⟨"tag", "table"⟩ ⟨[.start ⟨"tag", []⟩], []⟩ =
      .ok (⟨some ⟨"tag", []⟩, none⟩, ⟨[], ["tag"]⟩) := by
    rw [search_step_start (token_start ⟨"tag", []⟩ [] [])]
    rw [if_neg (by decide), if_pos (by decide)]
  exact ⟨hs, C7_search_result_exclusive ⟨"tag", "table"⟩ ⟨[.start ⟨"tag", []⟩], []⟩
    ⟨some ⟨"tag", []⟩, none⟩ ⟨[], ["tag"]⟩ hs⟩

/-- C8: every record handed to the JSON encoder during any run, on any
token stream whatsoever, satisfies path = group, colon, raw name. -/
theorem C8_path_group_invariant (toks : List Tok) (r : TagStruct)
    (hr : r ∈ streamerRecs toks) : r.path = r.group ++ ":" ++ r.name :=
  (streamer_recs_shape toks r hr).1

/-- Witness for C8: the record emitted for a one-table, one-tag input. -/
theorem C8_path_group_invariant_witness :
    mkTag "T" ⟨"n", false, "string", []⟩ ∈
        streamerRecs (renderInput [⟨"T", [⟨"n", false, "string", []⟩]⟩]) ∧
      (mkTag "T" ⟨"n", false, "string", []⟩).path =
        (mkTag "T" ⟨"n", false, "string", []⟩).group ++ ":" ++
          (mkTag "T" ⟨"n", false, "string", []⟩).name := by
  have hm : mkTag "T" ⟨"n", false, "string", []⟩ ∈
      streamerRecs (renderInput [⟨"T", [⟨"n", false, "string", []⟩]⟩]) := by
    rw [streamerRecs_render ⟨"T", [⟨"n", false, "string", []⟩]⟩ []]
    simp
  exact ⟨hm, C8_path_group_invariant (renderInput [⟨"T", [⟨"n", false, "string", []⟩]⟩])
    (mkTag "T" ⟨"n", false, "string", []⟩) hm⟩

/-- C9: for every record of any run, the description map has exactly one
entry per distinct lang attribute among the record's desc children (its
key list has no duplicates and contains exactly the langs), and a record
with no desc children carries the empty map — present, not missing. -/
theorem C9_description_distinct_langs (toks : List Tok) (r : TagStruct)
    (hr : r ∈ streamerRecs toks) :
    (r.jsonDescription.map Prod.fst).Nodup ∧
      (∀ l, l ∈ r.jsonDescription.map Prod.fst ↔ l ∈ r.descs.map (fun d => d.lang)) ∧
      (r.descs = [] → r.jsonDescription = []) := by
  have hj := (streamer_recs_shape toks r hr).2
  refine ⟨?_, ?_, ?_⟩
  · rw [hj]
    exact buildDescMap_keys_nodup r.descs
  · intro l
    rw [hj]
    exact buildDescMap_keys_mem r.descs l
  · intro hd
    rw [hj, hd]
    rfl

/-- Witness for C9: a record with two desc children in distinct languages. -/
theorem C9_description_distinct_langs_witness :
    mkTag "T" ⟨"n", true, "string", [⟨"en", "a"⟩, ⟨"de", "b"⟩]⟩ ∈
        streamerRecs (renderInput [⟨"T", [⟨"n", true, "string", [⟨"en", "a"⟩, ⟨"de", "b"⟩]⟩]⟩]) ∧
      ((mkTag "T" ⟨"n", true, "string", [⟨"en", "a"⟩, ⟨"de", "b"⟩]⟩).jsonDescription.map
        Prod.fst).Nodup := by
  have hm : mkTag "T" ⟨"n", true, "string", [⟨"en", "a"⟩, ⟨"de", "b"⟩]⟩ ∈
      streamerRecs (renderInput [⟨"T", [⟨"n", true, "string", [⟨"en", "a"⟩, ⟨"de", "b"⟩]⟩]⟩]) := by
    rw [streamerRecs_render ⟨"T", [⟨"n", true, "string", [⟨"en", "a"⟩, ⟨"de", "b"⟩]⟩]⟩ []]
    simp
  exact ⟨hm, (C9_description_distinct_langs
    (renderInput [⟨"T", [⟨"n", true, "string", [⟨"en", "a"⟩, ⟨"de", "b"⟩]⟩]⟩])
    (mkTag "T" ⟨"n", true, "string", [⟨"en", "a"⟩, ⟨"de", "b"⟩]⟩) hm).1⟩

/-- C10: for every well-formed input with at least one table, the streamed
bytes are exactly the prologue, then the first object followed by a
newline and every further object preceded by a comma and followed by a
newline (bodyRender), then the epilogue; in particular every record object
written to the sink is followed by a newline, and every comma separator
sits after the previous object's newline. -/
theorem C10_output_shape (tb : TableElem) (rest : List TableElem) :
    streamerOut (renderInput (tb :: rest)) =
      prologStr ++
        bodyRender false (encList tb.name (tb.tags ++ rest.flatMap (fun x => x.tags))) ++
        epilogStr :=
  streamerOut_render tb rest

/-- Counterexample to C3: for a two-table input where the second table is
named B, the record extracted from table B is emitted with group A (the
first table's name) — not the name of its nearest enclosing table. -/
theorem C3_counterexample :
    streamerRecs (renderInput [⟨"A", [⟨"t1", false, "string", []⟩]⟩,
        ⟨"B", [⟨"t2", false, "string", []⟩]⟩]) =
      [mkTag "A" ⟨"t1", false, "string", []⟩, mkTag "A" ⟨"t2", false, "string", []⟩] ∧
      (mkTag "A" ⟨"t2", false, "string", []⟩).group ≠ "B" := by
  constructor
  · rw [streamerRecs_render ⟨"A", [⟨"t1", false, "string", []⟩]⟩
      [⟨"B", [⟨"t2", false, "string", []⟩]⟩]]
    rfl
  · decide

/-- C3 (amended): every emitted record's group equals the table name held
by the active streamTags call; because the close-element comparison in
search matches against NamedStart, the inner loop never returns at a table
close, so for well-formed input every record — including those of later
tables — carries the FIRST table's name as group. -/
theorem C3_group_is_first_table_name (tb : TableElem) (rest : List TableElem) :
    (streamerRecs (renderInput (tb :: rest))).map (fun r => r.group) =
      List.replicate (tb.tags ++ rest.flatMap (fun x => x.tags)).length tb.name := by
  rw [streamerRecs_render]
  have hfun : ((fun r : TagStruct => r.group) ∘ mkTag tb.name) = (fun _ : TagElem => tb.name) :=
    funext (fun t => rfl)
  simp [hfun, List.map_const', List.length_flatMap, ← List.replicate_add, Function.comp]

/-- Supporting theorem for C4, proved for inputs with at least one table:
the records handed to the encoder are exactly one per tag element across
all tables in document order, so the array has Σ kᵢ elements; each element
is rendered by encodeTag, whose definition emits exactly the five fields
writable, path, group, description, type in that order and no name field. -/
theorem C4_record_count (tb : TableElem) (rest : List TableElem) :
    streamerRecs (renderInput (tb :: rest)) =
        (tb.tags ++ rest.flatMap (fun x => x.tags)).map (mkTag tb.name) ∧
      (streamerRecs (renderInput (tb :: rest))).length =
        ((tb :: rest).map (fun x => x.tags.length)).sum := by
  refine ⟨streamerRecs_render tb rest, ?_⟩
  rw [streamerRecs_render]
  have hfun : (List.length ∘ fun x : TableElem => x.tags) = (fun x : TableElem => x.tags.length) :=
    funext (fun x => rfl)
  simp [hfun, List.length_flatMap]

theorem stream_empty :
    stream ⟨⟨[], []⟩, prologStr, []⟩ =
      (⟨⟨[], []⟩, prologStr, []⟩, some (.str "search: decoder.Token: EOF")) := by
  rw [stream_err (search_err token_eof)]
  rfl

theorem streamGoroutine_empty :
    streamGoroutine [] =
      (⟨⟨[], []⟩, prologStr, []⟩,
        some (.wrap "stream" (.str "search: decoder.Token: EOF"))) := by
  unfold streamGoroutine
  rw [stream_empty]
  simp only
  rw [if_neg (by decide)]

/-- C1 fails on the code (code bug): on the empty input the stream
terminates precisely by end-of-input at the outer table search, yet the
epilogue is NOT written and an error is returned — stream formats the
outer search error with the v verb of fmt.Errorf, so the recorded error is
a plain string through which errors.Is cannot find io.EOF.  The theorem
evaluates the run at the failing input: the output stays exactly the
prologue and the goroutine records a non-EOF-matching error. -/
theorem C1_outer_eof_yields_no_epilog :
    streamerOut [] = prologStr ∧
      streamerErr [] = some (.wrap "stream" (.str "search: decoder.Token: EOF")) ∧
      errorsIs (.str "search: decoder.Token: EOF") .eof = false := by
  unfold streamerOut streamerErr
  rw [streamGoroutine_empty]
  exact ⟨rfl, rfl, by decide⟩

/-- C2 fails on the code (code bug): for an input with no table element the
claimed output would be the complete empty document with the epilogue and
no error; the code instead leaves the truncated prologue and returns an
error, because the v-verb formatting in stream hides io.EOF from the
errors.Is check. -/
theorem C2_empty_input_truncated :
    streamerOut [] = "\x7b\"tags\": [" ∧
      streamerOut [] ≠ "\x7b\"tags\": []\x7d" ∧
      streamerErr [] ≠ none := by
  unfold streamerOut streamerErr
  rw [streamGoroutine_empty]
  refine ⟨rfl, by decide, by decide⟩

/-- Concrete input for the C6 counterexample: a first table named A, then a
second table element carrying NO name attribute. -/
def c6Input : List Tok :=
  [.start ⟨"table", [⟨"name", "A"⟩]⟩, .close "table", .start ⟨"table", []⟩, .close "table"]

/-- Counterexample to C6: the input contains a table element (the second
one) with no name attribute, yet the run reports NO error and writes the
epilogue — the name check runs only for tables matched by the outer
search, and the inner loop consumes every table after the first. -/
theorem C6_counterexample :
    streamerErr c6Input = none ∧ streamerOut c6Input = prologStr ++ epilogStr := by
  have h1 : search ⟨"table", ""⟩ ⟨c6Input, []⟩ =
      .ok (⟨some ⟨"table", [⟨"name", "A"⟩]⟩, none⟩,
        ⟨[.close "table", .start ⟨"table", []⟩, .close "table"], ["table"]⟩) := by
    unfold c6Input
    rw [search_step_start (token_start ⟨"table", [⟨"name", "A"⟩]⟩ _ _)]
    rw [if_neg (by decide), if_pos (by decide)]
  have h2 : search ⟨"tag", "table"⟩
      (⟨[.close "table", .start ⟨"table", []⟩, .close "table"], ["table"]⟩ : Decoder) =
      .error (.wrap "decoder.Token" .eof) := by
    rw [search_step_close (token_close "table" _ _), if_neg (by decide), if_neg (by decide)]
    rw [search_step_start (token_start ⟨"table", []⟩ _ _), if_neg (by decide),
      if_neg (by decide)]
    rw [search_step_close (token_close "table" _ _), if_neg (by decide), if_neg (by decide)]
    rw [search_err token_eof]
  have h3 := @streamTags_err "A" false
    ⟨⟨[.close "table", .start ⟨"table", []⟩, .close "table"], ["table"]⟩, prologStr, []⟩
    (.wrap "decoder.Token" .eof) h2
  have h4 := @stream_tags_err ⟨⟨c6Input, []⟩, prologStr, []⟩ ⟨"table", [⟨"name", "A"⟩]⟩
    ⟨[.close "table", .start ⟨"table", []⟩, .close "table"], ["table"]⟩ "A"
    ⟨⟨[.close "table", .start ⟨"table", []⟩, .close "table"], ["table"]⟩, prologStr, []⟩
    (.wrap "search" (.wrap "decoder.Token" .eof)) h1 rfl h3
  unfold streamerErr streamerOut streamGoroutine
  rw [h4]
  simp only
  rw [if_pos (by decide)]
  exact ⟨rfl, rfl⟩

theorem search_outer_skip (pre : List Tok)
    (hpre : ∀ t ∈ pre, t = Tok.other ∨ ∃ s, t = Tok.text s) (rest : List Tok)
    (stk : List String) :
    search ⟨"table", ""⟩ ⟨pre ++ rest, stk⟩ = search ⟨"table", ""⟩ ⟨rest, stk⟩ := by
  induction pre with
  | nil => rfl
  | cons t pre ih =>
    rcases hpre t (List.mem_cons_self t pre) with ho | ⟨s, hs⟩
    · subst ho
      rw [List.cons_append, search_step_other (token_other (pre ++ rest) stk)]
      exact ih (fun u hu => hpre u (List.mem_cons_of_mem _ hu))
    · subst hs
      rw [List.cons_append, search_step_text (token_text s (pre ++ rest) stk)]
      exact ih (fun u hu => hpre u (List.mem_cons_of_mem _ hu))

/-- C6 (amended): if the FIRST table element matched by the outer search —
here after a prefix of ignorable tokens — is missing its name attribute,
the streamer reports the missing-attribute error, the epilogue is not
written, and the sink holds exactly what was written up to the failure
point (the prologue); tables after the first are never name-checked. -/
theorem C6_first_table_missing_name (pre : List Tok) (attrs : List Attr) (rest : List Tok)
    (hpre : ∀ t ∈ pre, t = Tok.other ∨ ∃ s, t = Tok.text s)
    (hn : attributeByLocalName "name" attrs = none) :
    streamerErr (pre ++ .start ⟨"table", attrs⟩ :: rest) =
        some (.wrap "stream" (.str "no table name specified by exiftool")) ∧
      streamerOut (pre ++ .start ⟨"table", attrs⟩ :: rest) = prologStr := by
  have hsearch : search ⟨"table", ""⟩ ⟨pre ++ .start ⟨"table", attrs⟩ :: rest, []⟩ =
      .ok (⟨some ⟨"table", attrs⟩, none⟩, ⟨rest, ["table"]⟩) := by
    rw [search_outer_skip pre hpre]
    rw [search_step_start (token_start ⟨"table", attrs⟩ rest [])]
    rw [if_neg (by decide)]
    rw [if_pos (show (⟨"table", attrs⟩ : StartElem).name =
      (⟨"table", ""⟩ : xmlQuery).NamedStart from rfl)]
  have hstream := @stream_noname
    ⟨⟨pre ++ .start ⟨"table", attrs⟩ :: rest, []⟩, prologStr, []⟩
    ⟨"table", attrs⟩ ⟨rest, ["table"]⟩ hsearch hn
  unfold streamerErr streamerOut streamGoroutine
  rw [hstream]
  simp only
  rw [if_neg (by decide)]
  exact ⟨rfl, rfl⟩

/-- Witness for the amended C6 at a concrete input: one ignorable token,
then a table open element with no attributes at all. -/
theorem C6_first_table_missing_name_witness :
    (∀ t ∈ ([.other] : List Tok), t = Tok.other ∨ ∃ s, t = Tok.text s) ∧
      attributeByLocalName "name" [] = none ∧
      (streamerErr ([.other] ++ .start ⟨"table", []⟩ :: []) =
          some (.wrap "stream" (.str "no table name specified by exiftool")) ∧
        streamerOut ([.other] ++ .start ⟨"table", []⟩ :: []) = prologStr) := by
  refine ⟨?_, rfl, ?_⟩
  · intro t ht
    rw [List.mem_singleton] at ht
    exact Or.inl ht
  · exact C6_first_table_missing_name [.other] [] []
      (by intro t ht; rw [List.mem_singleton] at ht; exact Or.inl ht) rfl
